import Mathlib

/-!
Verification development for the Multi-Model Consensus AI Engine.

This file gives a shallow embedding, in Lean 4, of the reconciliation
pipeline of the repository: the response parser
(`bridge/src/response-parser.ts`), the patch engine
(`bridge/src/patch-engine.ts`), the consensus engine
(`bridge/src/orchestrator/consensus.ts`) and the critique pass of the
orchestrator (`bridge/src/orchestrator/orchestrator.ts`).

Modelling conventions:
* JavaScript numbers are modelled as exact rationals (`ℚ`); string lengths
  are Lean character counts.
* JavaScript strings are Lean `String`s; the scanners work on `List Char`.
* The few regular expressions of the source are embedded as explicit
  token-list matchers (`Tok`) whose semantics at each start position agree
  with the backtracking semantics of the original pattern; searching tries
  every start position, as `RegExp.test` / `String.match` do.
* A thrown exception is modelled with `Except String`.
-/

namespace Consensus

/-- JavaScript `\s` / trim whitespace class, restricted to the characters
that can actually occur in the pipeline (ASCII whitespace and NBSP). -/
def isJsSpace (c : Char) : Bool :=
  c = ' ' || c = '\t' || c = '\n' || c = '\r' || c = '\x0b' || c = '\x0c' || c = ' '

/-- JavaScript `\w` and the class `[a-zA-Z0-9_]` used by `extractKeywords`. -/
def isWordChar (c : Char) : Bool :=
  ('a' ≤ c && c ≤ 'z') || ('A' ≤ c && c ≤ 'Z') || ('0' ≤ c && c ≤ '9') || c = '_'

/-- ASCII decimal digit (`\d`). -/
def isDigitChar (c : Char) : Bool :=
  '0' ≤ c && c ≤ '9'

/-- The closed set of model identities (`ModelName` in `message-types.ts`). -/
inductive ModelName where
  | chatgpt | claude | gemini | deepseek | qwen | kimi
  deriving DecidableEq, Repr

instance : BEq ModelName := ⟨fun a b => decide (a = b)⟩

/-- Rendering of a `ModelName` as the string literal it is in TypeScript. -/
def ModelName.str : ModelName → String
  | .chatgpt => "chatgpt"
  | .claude => "claude"
  | .gemini => "gemini"
  | .deepseek => "deepseek"
  | .qwen => "qwen"
  | .kimi => "kimi"

/-- `CodeBlock` of `message-types.ts`. -/
structure CodeBlock where
  language : String
  code : String
  filename : Option String
  isDiff : Bool
  deriving DecidableEq, Repr

/-- `ModelResponse` of `message-types.ts`. -/
structure ModelResponse where
  model : ModelName
  proposal : String
  codeBlocks : List CodeBlock
  confidence : ℚ
  error : Option String := none
  latencyMs : ℕ := 0
  deriving DecidableEq, Repr

instance : Inhabited ModelResponse :=
  ⟨{ model := .chatgpt, proposal := "", codeBlocks := [], confidence := 0 }⟩

/-- A line/character range (`Edit.range` / `selectionRange`).  The fields are
integers: the diff parser can produce `-1` for a hunk starting at line `0`. -/
structure SelRange where
  startLine : ℤ
  startChar : ℤ
  endLine : ℤ
  endChar : ℤ
  deriving DecidableEq, Repr

/-- The `action` field of an `Edit`. -/
inductive EditAction where
  | create | replace | full
  deriving DecidableEq, Repr

/-- `Edit` of `message-types.ts`; `range` is optional, as in the source. -/
structure Edit where
  file : String
  range : Option SelRange := none
  newText : String
  action : EditAction
  deriving DecidableEq, Repr

/-- `ScoreBreakdown` of `message-types.ts`. -/
structure ScoreBreakdown where
  correctness : ℚ
  completeness : ℚ
  safety : ℚ
  style : ℚ
  performance : ℚ
  total : ℚ
  deriving DecidableEq, Repr

/-- `MergeStrategy` of `message-types.ts`. -/
inductive MergeStrategy where
  | clear_winner | merged | judge_fallback
  deriving DecidableEq, Repr

/-- `ConsensusResult` of `message-types.ts`.  The TypeScript `scores` record
is modelled as an insertion-ordered association list: assigning to an
existing key overwrites its value in place, a fresh key is appended. -/
structure ConsensusResult where
  winnerModel : ModelName
  mergeStrategy : MergeStrategy
  scores : List (ModelName × ScoreBreakdown)
  finalProposal : String
  edits : List Edit
  modelsUsed : List ModelName
  consensusScore : ℚ
  confidence : ℚ
  deriving DecidableEq, Repr

/-! ## A tiny matcher for the regular expressions of the source

The source uses a handful of regexes built only from literal characters,
`\s+`, `\s*` and `\S+`.  `Tok` embeds the literal/whitespace part; `\S+`
captures are handled separately by the filename-hint scanner. -/

/-- One token of an embedded regular expression. -/
inductive Tok where
  /-- a literal character (compared case-insensitively when the regex has
  the `i` flag) -/
  | lit (c : Char)
  /-- `\s+` -/
  | ws1
  /-- `\s*` -/
  | ws0
  deriving DecidableEq, Repr

/-- Character comparison, case-insensitive when `ci` is true (the `i`
regex flag). -/
def charEq (ci : Bool) (c x : Char) : Bool :=
  if ci then c.toLower == x.toLower else c == x

/-- Try `next` after skipping any number (including zero) of whitespace
characters: the backtracking semantics of `\s*` followed by `next`. -/
def wsSkip (next : List Char → Bool) : List Char → Bool
  | [] => next []
  | x :: xs => next (x :: xs) || (isJsSpace x && wsSkip next xs)

/-- Does the token list match a prefix of `l`?  (Backtracking semantics:
true iff some split of `l` realises every token.) -/
def matchToks (ci : Bool) : List Tok → List Char → Bool
  | [], _ => true
  | .lit c :: ts, l =>
    match l with
    | [] => false
    | x :: xs => charEq ci c x && matchToks ci ts xs
  | .ws1 :: ts, l =>
    match l with
    | [] => false
    | x :: xs => isJsSpace x && wsSkip (matchToks ci ts) xs
  | .ws0 :: ts, l => wsSkip (matchToks ci ts) l

/-- `RegExp.test`: does the token list match starting at some position? -/
def searchToks (ci : Bool) (ts : List Tok) (s : String) : Bool :=
  s.data.tails.any (matchToks ci ts)

/-- Literal characters of a string as tokens. -/
def litToks (s : String) : List Tok :=
  s.data.map .lit

/-! ## String utilities shared by the scanners -/

/-- `String.prototype.includes` on character lists. -/
def containsSub (hay sub : List Char) : Bool :=
  hay.tails.any (sub.isPrefixOf ·)

/-- `code.split('\n')`. -/
def splitLines (code : List Char) : List (List Char) :=
  code.splitOn '\n'

/-- `String.prototype.trimEnd`. -/
def trimEndChars (l : List Char) : List Char :=
  (l.reverse.dropWhile isJsSpace).reverse

/-- `String.prototype.trim`. -/
def trimChars (l : List Char) : List Char :=
  trimEndChars (l.dropWhile isJsSpace)

/-! ## Response parser (`bridge/src/response-parser.ts`) -/

/-- Does the list start with a ``` fence? -/
def fenceAt : List Char → Bool
  | '`' :: '`' :: '`' :: _ => true
  | _ => false

/-- Split `l` at the earliest occurrence of a ``` fence: returns the part
before the fence and the part after it.  This is the lazy `[\s\S]*?`
body followed by the closing fence of the block regex. -/
def splitAtFence : List Char → Option (List Char × List Char)
  | [] => none
  | c :: rest =>
    if fenceAt (c :: rest) then some ([], rest.drop 2)
    else
      match splitAtFence rest with
      | some (b, r) => some (c :: b, r)
      | none => none

/-- The `\s*\n` of the block-opening regex: consume the maximal whitespace
run at the head of `l`; succeed iff it contains a newline, returning the
suffix just after the *last* newline of the run (the greedy `\s*`
backtracks to the last `\n`). -/
def afterLastNlInWs : List Char → Option (List Char)
  | [] => none
  | c :: rest =>
    if isJsSpace c then
      match afterLastNlInWs rest with
      | some r => some r
      | none => if c = '\n' then some rest else none
    else none

/-- The tag part `(\w*(?::\S+)?)` of the block regex, parsed greedily from
the characters after the opening fence: returns the captured tag and the
remainder.  Greedy parsing agrees with the regex's backtracking semantics
because shrinking `\w*` or `\S+` always leaves a character the next token
cannot match. -/
def parseFenceTag (r : List Char) : List Char × List Char :=
  match r.dropWhile isWordChar with
  | ':' :: l1' =>
    if (l1'.takeWhile (fun c => !isJsSpace c)).isEmpty then
      (r.takeWhile isWordChar, ':' :: l1')
    else
      (r.takeWhile isWordChar ++ ':' :: l1'.takeWhile (fun c => !isJsSpace c),
        l1'.dropWhile (fun c => !isJsSpace c))
  | _ => (r.takeWhile isWordChar, r.dropWhile isWordChar)

/-- One attempt of the block regex
`` ```(\w*(?::\S+)?)\s*\n([\s\S]*?)``` `` at the head of `l`: returns
`(tag, rawBody, rest)` on success. -/
def tryFenceMatch (l : List Char) : Option (List Char × List Char × List Char) :=
  if fenceAt l then
    match afterLastNlInWs (parseFenceTag (l.drop 3)).2 with
    | none => none
    | some bodyStart =>
      match splitAtFence bodyStart with
      | some (body, rest) => some ((parseFenceTag (l.drop 3)).1, body, rest)
      | none => none
  else none

/-- `detectDiff` of `response-parser.ts`. -/
def detectDiff (code : List Char) (language : String) : Bool :=
  if language = "diff" then true
  else
    let lines := splitLines code
    (lines.any fun l => "---".data.isPrefixOf l || "+++".data.isPrefixOf l) &&
    (lines.any fun l => "@@".data.isPrefixOf l)

/-- `inferLanguage` of `response-parser.ts`. -/
def inferLanguage (code : List Char) : String :=
  if containsSub code "import React".data || containsSub code "from \"react\"".data then "tsx"
  else if containsSub code "export default".data || containsSub code "const ".data
      || containsSub code "function ".data then "typescript"
  else if containsSub code "def ".data || containsSub code "import ".data
      || containsSub code "class ".data then "python"
  else if containsSub code "#include".data || containsSub code "int main".data then "cpp"
  else "text"

/-- Build a `CodeBlock` from a matched tag and raw body, as the loop body
of `extractCodeBlocks` does: trim the body's end, split the tag at its
first `:` into language and optional filename, classify the diff. -/
def mkBlock (tag body : List Char) : CodeBlock :=
  let code := trimEndChars body
  let language : List Char := if tag.contains ':' then tag.takeWhile (fun c => !(c == ':')) else tag
  let filename : Option String :=
    if tag.contains ':' then some (String.mk ((tag.dropWhile (fun c => !(c == ':'))).drop 1))
    else none
  { language := if language.isEmpty then inferLanguage code else String.mk language
    code := String.mk code
    filename := filename
    isDiff := detectDiff code (String.mk language) }

theorem splitAtFence_length {l b r : List Char} (h : splitAtFence l = some (b, r)) :
    r.length < l.length := by
  induction l generalizing b r with
  | nil => simp [splitAtFence] at h
  | cons c rest ih =>
    rw [splitAtFence] at h
    split at h
    · cases h
      simp only [List.length_drop, List.length_cons]
      omega
    · revert h
      split
      · next b' r' heq =>
        intro h
        cases h
        have := ih heq
        simpa using Nat.lt_succ_of_lt this
      · intro h
        cases h

theorem afterLastNlInWs_length {l r : List Char} (h : afterLastNlInWs l = some r) :
    r.length < l.length := by
  induction l generalizing r with
  | nil => simp [afterLastNlInWs] at h
  | cons c rest ih =>
    rw [afterLastNlInWs] at h
    split at h
    · revert h
      split
      · next r' heq =>
        intro h
        cases h
        have := ih heq
        simpa using Nat.lt_succ_of_lt this
      · intro h
        split at h
        · cases h
          simp
        · cases h
    · cases h

theorem parseFenceTag_snd_length (r : List Char) :
    (parseFenceTag r).2.length ≤ r.length := by
  have hdw : (r.dropWhile isWordChar).length ≤ r.length :=
    (List.dropWhile_sublist _).length_le
  rw [parseFenceTag]
  split
  · next l1' heq =>
    rw [heq] at hdw
    split
    · simpa using hdw
    · have h1 : (l1'.dropWhile (fun c => !isJsSpace c)).length ≤ l1'.length :=
        (List.dropWhile_sublist _).length_le
      simp only [List.length_cons] at hdw
      dsimp only
      omega
  · exact hdw

theorem tryFenceMatch_length {l t b r : List Char} (h : tryFenceMatch l = some (t, b, r)) :
    r.length < l.length := by
  rw [tryFenceMatch] at h
  split at h
  · revert h
    split
    · intro h; cases h
    · next bodyStart hbs =>
      have htag : (parseFenceTag (l.drop 3)).2.length ≤ l.length := by
        calc (parseFenceTag (l.drop 3)).2.length ≤ (l.drop 3).length :=
              parseFenceTag_snd_length _
          _ ≤ l.length := (List.drop_sublist 3 l).length_le
      have hb : bodyStart.length < (parseFenceTag (l.drop 3)).2.length :=
        afterLastNlInWs_length hbs
      intro h
      split at h
      · next body rest' hsf =>
        cases h
        have := splitAtFence_length hsf
        omega
      · cases h
  · cases h

/-- The `while ((match = regex.exec(markdown)) !== null)` loop of
`extractCodeBlocks`: scan left to right; on a match emit the block and
continue after it; otherwise advance one character.  The fuel argument
only bounds the recursion (each step strictly shortens the text, see
`tryFenceMatch_length`), keeping the definition structurally recursive;
it is started at the text length and never runs out. -/
def extractBlocksAuxF : ℕ → List Char → List CodeBlock
  | _, [] => []
  | 0, _ :: _ => []
  | fuel + 1, c :: rest =>
    match tryFenceMatch (c :: rest) with
    | some (tag, body, r) => mkBlock tag body :: extractBlocksAuxF fuel r
    | none => extractBlocksAuxF fuel rest

/-- `extractCodeBlocks` of `response-parser.ts`. -/
def extractCodeBlocks (markdown : String) : List CodeBlock :=
  extractBlocksAuxF markdown.data.length markdown.data

/-- `markdown.replace(/```[\s\S]*?```/g, '')`: remove every closed fenced
block, scanning left to right.  Fuel-bounded structural recursion, started
at the text length, which each step strictly decreases. -/
def stripFencedAuxF : ℕ → List Char → List Char
  | _, [] => []
  | 0, l => l
  | fuel + 1, c :: rest =>
    if fenceAt (c :: rest) then
      match splitAtFence (rest.drop 2) with
      | some (_, r) => stripFencedAuxF fuel r
      | none => c :: stripFencedAuxF fuel rest
    else c :: stripFencedAuxF fuel rest

def stripFencedAux (l : List Char) : List Char :=
  stripFencedAuxF l.length l

/-- `.replace(/\n{3,}/g, '\n\n')`: collapse every run of three or more
newlines to exactly two.  Fuel-bounded structural recursion, started at
the text length, which each step strictly decreases. -/
def collapseNlsF : ℕ → List Char → List Char
  | _, [] => []
  | 0, l => l
  | fuel + 1, c :: rest =>
    if c = '\n' then
      (if 3 ≤ (rest.takeWhile (fun x => x == '\n')).length + 1 then ['\n', '\n']
        else '\n' :: rest.takeWhile (fun x => x == '\n')) ++
        collapseNlsF fuel (rest.dropWhile (fun x => x == '\n'))
    else c :: collapseNlsF fuel rest

def collapseNls (l : List Char) : List Char :=
  collapseNlsF l.length l

/-- `extractExplanation` of `response-parser.ts`: strip fenced blocks,
trim, then collapse excessive newline runs. -/
def extractExplanation (markdown : String) : String :=
  String.mk (collapseNls (trimChars (stripFencedAux markdown.data)))



/-! ## Filename hints (`extractFilenameHint` of `response-parser.ts`)

Each hint regex is a case-insensitive literal/whitespace preamble, a
captured `\S+`, and (for the block-comment pattern) a `\s*\*\/` tail. -/

/-- A hint pattern: the part before the capture and the part after it. -/
structure HintPat where
  pre : List Tok
  post : List Tok
  deriving Repr

/-- The four hint patterns of `extractFilenameHint`, in source order:
`//filename:`, `//file:`, `#filename:` and `/*filename:*/` styles. -/
def hintPats : List HintPat :=
  [ ⟨[.lit '/', .lit '/', .ws0] ++ litToks "filename:" ++ [.ws0], []⟩,
    ⟨[.lit '/', .lit '/', .ws0] ++ litToks "file:" ++ [.ws0], []⟩,
    ⟨[.lit '#', .ws0] ++ litToks "filename:" ++ [.ws0], []⟩,
    ⟨[.lit '/', .lit '*', .ws0] ++ litToks "filename:" ++ [.ws0],
      [.ws0, .lit '*', .lit '/']⟩ ]

/-- Deterministic (greedy) consumption of a token preamble.  For the hint
patterns this agrees with regex backtracking: every `\s*`/`\s+` is
followed by a non-whitespace token, so a shorter whitespace skip can
never make the rest match. -/
def consumeToks : List Tok → List Char → Option (List Char)
  | [], l => some l
  | .lit c :: ts, l =>
    match l with
    | [] => none
    | x :: xs => if charEq true c x then consumeToks ts xs else none
  | .ws1 :: ts, l =>
    match l with
    | [] => none
    | x :: xs => if isJsSpace x then consumeToks ts (xs.dropWhile isJsSpace) else none
  | .ws0 :: ts, l => consumeToks ts (l.dropWhile isJsSpace)

/-- Greedy-with-backtracking capture of `(\S+)` followed by `post`: try the
longest prefix of the maximal non-whitespace run first, giving characters
back from the right until `post` matches, as the regex engine does. -/
def capTryF (post : List Tok) : ℕ → List Char → List Char → Option (List Char)
  | _, [], _ => none
  | 0, _ :: _, _ => none
  | fuel + 1, x :: xs, rest =>
    if matchToks true post rest then some (x :: xs)
    else capTryF post fuel ((x :: xs).dropLast) ((x :: xs).getLastD ' ' :: rest)

def capTry (post : List Tok) (run rest : List Char) : Option (List Char) :=
  capTryF post run.length run rest

/-- One attempt of a hint pattern at the head of `l`. -/
def matchCapAt (hp : HintPat) (l : List Char) : Option (List Char) :=
  match consumeToks hp.pre l with
  | none => none
  | some rem =>
    capTry hp.post (rem.takeWhile (fun c => !isJsSpace c))
      (rem.dropWhile (fun c => !isJsSpace c))

/-- `String.prototype.match` for a hint pattern: try every start position,
left to right, and return the first capture. -/
def findCapF (hp : HintPat) : ℕ → List Char → Option (List Char)
  | 0, _ => none
  | fuel + 1, l =>
    match matchCapAt hp l with
    | some cap => some cap
    | none =>
      match l with
      | [] => none
      | _ :: rest => findCapF hp fuel rest

def findCap (hp : HintPat) (l : List Char) : Option (List Char) :=
  findCapF hp (l.length + 1) l

/-- `extractFilenameHint` of `response-parser.ts`: the patterns are tried
in order; the first that matches anywhere yields its capture. -/
def extractFilenameHint (code : String) : Option String :=
  (hintPats.findSome? fun hp => findCap hp code.data).map String.mk

/-! ## Patch engine (`bridge/src/patch-engine.ts`) -/

/-- Parse a run of decimal digits as a number (`parseInt` on a `\d+`
capture). -/
def digitsToNat (l : List Char) : ℕ :=
  l.foldl (fun acc c => 10 * acc + (c.toNat - '0'.toNat)) 0

/-- Does the line start with `@@`?  (The hunk-body loop stops at any such
line, valid header or not.) -/
def atHunkMark (l : List Char) : Bool :=
  "@@".data.isPrefixOf l

/-- The hunk-header regex
`^@@\s*-(\d+)(?:,(\d+))?\s*\+(\d+)(?:,(\d+))?\s*@@` applied to one line:
returns the old-start and old-count (`parseInt(m[2] || '1')`).  The new
side is validated but unused, exactly as in the source.  Greedy parsing
agrees with the regex: shrinking a `\d+` or skipping a present `,\d+`
group leaves a character the next token cannot match. -/
def parseHunkHeader (l : List Char) : Option (ℕ × ℕ) :=
  if atHunkMark l then
    let r1 := (l.drop 2).dropWhile isJsSpace
    match r1 with
    | '-' :: r2 =>
      let d1 := r2.takeWhile isDigitChar
      if d1.isEmpty then none
      else
        let r3 := r2.dropWhile isDigitChar
        let (d2, r4) : List Char × List Char :=
          match r3 with
          | ',' :: r3' =>
            if (r3'.takeWhile isDigitChar).isEmpty then ([], ',' :: r3')
            else (r3'.takeWhile isDigitChar, r3'.dropWhile isDigitChar)
          | _ => ([], r3)
        match r4.dropWhile isJsSpace with
        | '+' :: r5 =>
          let d3 := r5.takeWhile isDigitChar
          if d3.isEmpty then none
          else
            let r6 := r5.dropWhile isDigitChar
            let r7 : List Char :=
              match r6 with
              | ',' :: r6' =>
                if (r6'.takeWhile isDigitChar).isEmpty then ',' :: r6'
                else r6'.dropWhile isDigitChar
              | _ => r6
            match r7.dropWhile isJsSpace with
            | '@' :: '@' :: _ =>
              -- a `,` not followed by a digit never reaches this point:
              -- the skipped group leaves the `,` where `\s*[+@]` cannot
              -- match, so the corresponding branch above keeps the `,`
              -- and the `+`/`@@` match fails
              some (digitsToNat d1, if d2.isEmpty then 1 else digitsToNat d2)
            | _ => none
        | _ => none
    | _ => none
  else none

/-- Classification of one line inside a hunk body: `-` lines are consumed
silently, `+` and context lines (leading space, or empty) contribute to
the replacement text, anything else is ignored. -/
def keepHunkLine (l : List Char) : Option (List Char) :=
  match l with
  | '-' :: _ => none
  | '+' :: t => some t
  | ' ' :: t => some t
  | [] => some []
  | _ => none

/-- The replacement lines collected from a hunk body. -/
def hunkNewLines (body : List (List Char)) : List (List Char) :=
  body.filterMap keepHunkLine

/-- `Array.prototype.join('\n')`. -/
def joinNl (ls : List (List Char)) : List Char :=
  List.intercalate ['\n'] ls

/-- The hunk loop of `parseDiffToEdits`: at each line, emit one Edit per
valid hunk header, consuming its body up to the next `@@` line; skip any
other line. -/
def parseHunksF (targetFile : String) : ℕ → List (List Char) → List Edit
  | _, [] => []
  | 0, _ :: _ => []
  | fuel + 1, line :: rest =>
    match parseHunkHeader line with
    | some (startL, oldCount) =>
      { file := targetFile
        range := some { startLine := (startL : ℤ) - 1, startChar := 0,
                        endLine := (startL : ℤ) - 1 + (oldCount : ℤ), endChar := 0 }
        newText := String.mk (joinNl (hunkNewLines (rest.takeWhile (fun l => !atHunkMark l))))
        action := .replace } ::
        parseHunksF targetFile fuel (rest.dropWhile (fun l => !atHunkMark l))
    | none => parseHunksF targetFile fuel rest

def parseHunks (lines : List (List Char)) (targetFile : String) : List Edit :=
  parseHunksF targetFile lines.length lines

/-- `line.slice(4).replace(/^b\//, '')`. -/
def stripDiffB (l : List Char) : List Char :=
  if "b/".data.isPrefixOf l then l.drop 2 else l

/-- `parseDiffToEdits` of `patch-engine.ts`: scan header lines for the last
`+++ ` line before the first `@@` line to recover the target filename
(falling back to `fallbackFile` when absent or empty after trimming),
then parse the hunks. -/
def parseDiffToEdits (block : CodeBlock) (fallbackFile : String) : List Edit :=
  let lines := splitLines block.code.data
  let targetFile := (lines.takeWhile (fun l => !atHunkMark l)).foldl
    (fun tf l =>
      if "+++ ".data.isPrefixOf l then
        if (trimChars (stripDiffB (l.drop 4))).isEmpty then fallbackFile
        else String.mk (trimChars (stripDiffB (l.drop 4)))
      else tf)
    fallbackFile
  parseHunks (lines.dropWhile (fun l => !atHunkMark l)) targetFile

/-- JavaScript `a || b` for an optional/empty-string filename. -/
def jsOrFile : Option String → String → String
  | some f, alt => if f = "" then alt else f
  | none, alt => alt

/-- The filename resolution of `buildEdits`:
`block.filename || extractFilenameHint(block.code) || currentFile`. -/
def resolveName (block : CodeBlock) (currentFile : String) : String :=
  jsOrFile block.filename (jsOrFile (extractFilenameHint block.code) currentFile)

/-- `block.filename && block.filename !== currentFile`: only an explicit
(truthy) segment filename can mark a new file. -/
def isNewFile (block : CodeBlock) (currentFile : String) : Bool :=
  match block.filename with
  | some f => !(f == "") && !(f == currentFile)
  | none => false

/-- `buildEdits` of `patch-engine.ts`. -/
def buildEdits (codeBlocks : List CodeBlock) (currentFile : String)
    (selectionRange : Option SelRange) : List Edit :=
  codeBlocks.flatMap fun block =>
    if block.isDiff then parseDiffToEdits block currentFile
    else
      if isNewFile block currentFile then
        [{ file := resolveName block currentFile, newText := block.code, action := .create }]
      else
        match selectionRange with
        | some r =>
          [{ file := resolveName block currentFile, range := some r,
             newText := block.code, action := .replace }]
        | none =>
          [{ file := resolveName block currentFile, newText := block.code, action := .full }]

/-! ## Consensus engine (`bridge/src/orchestrator/consensus.ts`) -/

/-- The fixed scoring weights (`WEIGHTS`), which sum to 1. -/
structure Weights where
  correctness : ℚ
  completeness : ℚ
  safety : ℚ
  style : ℚ
  performance : ℚ

/-- `WEIGHTS` of `consensus.ts`. -/
def WEIGHTS : Weights :=
  { correctness := 0.30, completeness := 0.25, safety := 0.20,
    style := 0.15, performance := 0.10 }

/-- `/rm\s+-rf/i`, the destructive-filesystem pattern of `scoreProposal`. -/
def rmRfPat : Bool × List Tok :=
  (true, [.lit 'r', .lit 'm', .ws1, .lit '-', .lit 'r', .lit 'f'])

/-- The `dangerPatterns` array of `scoreProposal`, in source order; the
first component is the case-insensitivity flag of the regex. -/
def dangerPatterns : List (Bool × List Tok) :=
  [ rmRfPat,
    (false, litToks "eval" ++ [.ws0, .lit '(']),
    (false, litToks "exec" ++ [.ws0, .lit '(']),
    (false, litToks "process.exit"),
    (true, litToks "DROP" ++ [.ws1] ++ litToks "TABLE"),
    (true, litToks "DELETE" ++ [.ws1] ++ litToks "FROM") ]

/-- `p.test(code)` for one danger pattern. -/
def testPat (p : Bool × List Tok) (s : String) : Bool :=
  searchToks p.1 p.2 s

/-- Number of distinct danger patterns matched by some code block. -/
def dangerCount (codeBlocks : List CodeBlock) : ℕ :=
  (dangerPatterns.filter fun p => codeBlocks.any fun b => testPat p b.code).length

/-- Total length of all code blocks' code. -/
def totalCodeLength (codeBlocks : List CodeBlock) : ℕ :=
  (codeBlocks.map (fun b => b.code.length)).sum

/-- `scoreProposal` of `consensus.ts`. -/
def scoreProposal (response : ModelResponse) : ScoreBreakdown :=
  let correctness : ℚ :=
    min 10 ((if response.codeBlocks.length > 0 then 5 else 0) + response.confidence * 5)
  let hasExplanation : Prop :=
    (response.proposal.length : ℚ) - (totalCodeLength response.codeBlocks : ℚ) > 50
  let completeness : ℚ :=
    min 10 ((if response.codeBlocks.length > 0 then 4 else 0) +
      (if hasExplanation then 3 else 0) + min 3 ((response.proposal.length : ℚ) / 500))
  let safety : ℚ := max 0 (10 - (dangerCount response.codeBlocks : ℚ) * 3)
  let hasComments : Bool := response.codeBlocks.any fun b =>
    containsSub b.code.data "//".data || containsSub b.code.data "/*".data ||
      containsSub b.code.data "#".data
  let style : ℚ :=
    min 10 ((if hasComments then 4 else 2) +
      (if response.codeBlocks.length > 0 then 3 else 0) + min 3 (response.confidence * 3))
  let performance : ℚ :=
    min 10 (if totalCodeLength response.codeBlocks > 0
      then max 3 (10 - ((totalCodeLength response.codeBlocks / 2000 : ℕ) : ℚ))
      else 5)
  { correctness := correctness
    completeness := completeness
    safety := safety
    style := style
    performance := performance
    total := correctness * WEIGHTS.correctness + completeness * WEIGHTS.completeness +
      safety * WEIGHTS.safety + style * WEIGHTS.style + performance * WEIGHTS.performance }

/-- `mergeProposals` of `consensus.ts`. -/
def mergeProposals (primary secondary : ModelResponse) : String :=
  if (extractExplanation secondary.proposal).length >
      (extractExplanation primary.proposal).length * (1.5 : ℚ) then
    primary.proposal ++ "\n\n<!-- Additional insights from " ++ secondary.model.str ++ " -->\n"
      ++ extractExplanation secondary.proposal
  else primary.proposal

/-- `normalizeTotal` of `consensus.ts`. -/
def normalizeTotal (total : ℚ) : ℚ :=
  min 1 (max 0 (total / 10))

/-- One assignment `scores[m] = s` on the insertion-ordered record model:
overwrite in place if the key exists, else append. -/
def insertScore (acc : List (ModelName × ScoreBreakdown)) (m : ModelName)
    (s : ScoreBreakdown) : List (ModelName × ScoreBreakdown) :=
  if acc.any (fun p => p.1 == m) then acc.map (fun p => if p.1 == m then (p.1, s) else p)
  else acc ++ [(m, s)]

/-- The `scores` record built by the loop
`for (const r of responses) scores[r.model] = scoreProposal(r)`. -/
def buildScores (responses : List ModelResponse) : List (ModelName × ScoreBreakdown) :=
  responses.foldl (fun acc r => insertScore acc r.model (scoreProposal r)) []

/-- Record lookup `scores[m]`. -/
def lookupScore (scores : List (ModelName × ScoreBreakdown)) (m : ModelName) :
    Option ScoreBreakdown :=
  (scores.find? (fun p => p.1 == m)).map (·.2)

/-- The all-zero breakdown, used only as the default of total lookups that
the control flow keeps unreachable. -/
def zeroScore : ScoreBreakdown :=
  ⟨0, 0, 0, 0, 0, 0⟩

/-- `scores[m]` as a total function on the record built from `responses`
(every model occurring in `responses` is a key, so the default is never
read on those). -/
def scoreFor (responses : List ModelResponse) (m : ModelName) : ScoreBreakdown :=
  (lookupScore (buildScores responses) m).getD zeroScore

/-- The sort order induced by the comparator
`(a, b) => scores[b.model].total - scores[a.model].total`: `a` may come
before `b` iff `a`'s looked-up total is at least `b`'s. -/
def rankLe (responses : List ModelResponse) (a b : ModelResponse) : Bool :=
  decide ((scoreFor responses b.model).total ≤ (scoreFor responses a.model).total)

/-- `[...responses].sort((a, b) => scores[b.model].total - scores[a.model].total)`:
a stable descending sort on looked-up totals, like the JavaScript stable
sort with that comparator. -/
def rankResponses (responses : List ModelResponse) : List ModelResponse :=
  responses.mergeSort (rankLe responses)

/-- Placeholder result; `consensusResult` is only reached through
`runConsensus`, which rejects the empty list first. -/
def emptyResult : ConsensusResult :=
  ⟨.chatgpt, .clear_winner, [], "", [], [], 0, 0⟩

/-- `ranked[0]` of `runConsensus` (total, via the default response; the
callers guarantee at least two responses). -/
def rankedTop (responses : List ModelResponse) : ModelResponse :=
  (rankResponses responses).headD default

/-- `ranked[1]` of `runConsensus`. -/
def rankedSecond (responses : List ModelResponse) : ModelResponse :=
  ((rankResponses responses).drop 1).headD default

/-- `gap = topScore - secondScore` of `runConsensus`. -/
def gapOf (responses : List ModelResponse) : ℚ :=
  (scoreFor responses (rankedTop responses).model).total -
    (scoreFor responses (rankedSecond responses).model).total

/-- `ranked.find(r => r.model === 'chatgpt') || ranked[0]`, the judge of
the fallback branch. -/
def judgeOf (responses : List ModelResponse) : ModelResponse :=
  ((rankResponses responses).find? (fun r => r.model == .chatgpt)).getD (rankedTop responses)

/-- The three-way strategy decision of `runConsensus`: merge strategy,
final proposal text, and winner model. -/
def strategyChoice (responses : List ModelResponse) : MergeStrategy × String × ModelName :=
  if gapOf responses > 1.5 then
    (.clear_winner, (rankedTop responses).proposal, (rankedTop responses).model)
  else if gapOf responses ≤ 1.5 ∧ gapOf responses ≥ 0 then
    (.merged, mergeProposals (rankedTop responses) (rankedSecond responses),
      (rankedTop responses).model)
  else
    (.judge_fallback, (judgeOf responses).proposal, (judgeOf responses).model)

/-- `ranked.slice(0, Math.ceil(ranked.length / 2))`. -/
def topHalfOf (responses : List ModelResponse) : List ModelResponse :=
  (rankResponses responses).take (((rankResponses responses).length + 1) / 2)

/-- The ≥ 2 responses branch of `runConsensus`. -/
def multiResult (responses : List ModelResponse) (currentFile : String)
    (selectionRange : Option SelRange) : ConsensusResult :=
  { winnerModel := (strategyChoice responses).2.2
    mergeStrategy := (strategyChoice responses).1
    scores := buildScores responses
    finalProposal := (strategyChoice responses).2.1
    edits := buildEdits
      (if (extractCodeBlocks (strategyChoice responses).2.1).length > 0
        then extractCodeBlocks (strategyChoice responses).2.1
        else (rankedTop responses).codeBlocks)
      currentFile selectionRange
    modelsUsed := responses.map (·.model)
    consensusScore := normalizeTotal
      (((topHalfOf responses).map fun r => (scoreFor responses r.model).total).sum /
        ((topHalfOf responses).length : ℚ))
    confidence := (rankedTop responses).confidence }

/-- The non-throwing body of `runConsensus`, for a non-empty response
list: scoring, ranking, strategy choice, merge, edits. -/
def consensusResult (responses : List ModelResponse) (currentFile : String)
    (selectionRange : Option SelRange) : ConsensusResult :=
  match responses with
  | [] => emptyResult
  | [sole] =>
    { winnerModel := sole.model
      mergeStrategy := .clear_winner
      scores := [(sole.model, scoreProposal sole)]
      finalProposal := sole.proposal
      edits := buildEdits sole.codeBlocks currentFile selectionRange
      modelsUsed := [sole.model]
      consensusScore := normalizeTotal (scoreProposal sole).total
      confidence := sole.confidence }
  | _ :: _ :: _ => multiResult responses currentFile selectionRange

/-- `runConsensus` of `consensus.ts`: throws exactly on an empty response
list, otherwise returns the consensus result. -/
def runConsensus (responses : List ModelResponse) (currentFile : String)
    (selectionRange : Option SelRange) : Except String ConsensusResult :=
  if responses.isEmpty then .error "No model responses to evaluate"
  else .ok (consensusResult responses currentFile selectionRange)

/-! ## Critique pass (`runCritiqueRound` of `orchestrator.ts`) -/

/-- `extractKeywords` of `orchestrator.ts`: replace every character
outside `[a-zA-Z0-9_]` by a space, split on whitespace runs, keep words
longer than 3 characters, cap at 50. -/
def extractKeywords (code : String) : List String :=
  ((((code.data.splitOnP (fun c => !isWordChar c)).filter
    (fun w => w.length > 3)).take 50).map String.mk)

/-- One entry of the `codeSignatures` array. -/
structure CodeSignature where
  model : ModelName
  hasCode : Bool
  len : ℕ
  keywords : List String
  deriving Repr

/-- The signature of one response: keywords of its concatenated code. -/
def codeSignatureOf (r : ModelResponse) : CodeSignature :=
  { model := r.model
    hasCode := decide (r.codeBlocks.length > 0)
    len := (String.intercalate "\n" (r.codeBlocks.map (·.code))).length
    keywords := extractKeywords (String.intercalate "\n" (r.codeBlocks.map (·.code))) }

/-- Keyword overlap count between two signatures. -/
def keywordOverlap (mine other : CodeSignature) : ℕ :=
  (mine.keywords.filter (fun k => other.keywords.contains k)).length

/-- `overlap > mySignature.keywords.length * 0.3`. -/
def agreesWith (mine other : CodeSignature) : Bool :=
  decide ((keywordOverlap mine other : ℚ) > (mine.keywords.length : ℚ) * 0.3)

/-- The agreement ratio of one response against the rest of the list
(`agreementCount / (codeSignatures.length - 1)`), written directly with
the response's own signature. -/
def agreementRatioOf (responses : List ModelResponse) (r : ModelResponse) : ℚ :=
  (((responses.map codeSignatureOf).filter fun other =>
      !(other.model == r.model) && agreesWith (codeSignatureOf r) other).length : ℚ) /
    ((responses.length : ℚ) - 1)

/-- `runCritiqueRound` of `orchestrator.ts`: each response's confidence is
boosted by its peer-agreement ratio, clamped to 1; the in-place mutation
of the source is modelled by mapping to an updated copy. -/
def runCritiqueRound (responses : List ModelResponse) : List ModelResponse :=
  responses.map fun response =>
    { response with
      confidence := min 1 (response.confidence +
        (((((responses.map codeSignatureOf).find?
              (fun s => s.model == response.model)).getD (codeSignatureOf response)
            |> fun mySignature =>
              ((responses.map codeSignatureOf).filter fun other =>
                !(other.model == response.model) && agreesWith mySignature other).length) : ℚ) /
          (((responses.map codeSignatureOf).length : ℚ) - 1)) * 0.15) }

/-! ## Supporting lemmas -/

theorem modelName_beq (a b : ModelName) : (a == b) = decide (a = b) := rfl

theorem rankResponses_perm (rs : List ModelResponse) : (rankResponses rs).Perm rs :=
  List.mergeSort_perm rs _

theorem rankResponses_length (rs : List ModelResponse) :
    (rankResponses rs).length = rs.length :=
  (rankResponses_perm rs).length_eq

theorem rankResponses_sorted (rs : List ModelResponse) :
    (rankResponses rs).Pairwise (fun a b =>
      (scoreFor rs b.model).total ≤ (scoreFor rs a.model).total) := by
  have htrans : ∀ a b c : ModelResponse,
      rankLe rs a b = true → rankLe rs b c = true → rankLe rs a c = true := by
    intro a b c hab hbc
    simp only [rankLe, decide_eq_true_iff] at *
    exact le_trans hbc hab
  have htotal : ∀ a b : ModelResponse, (rankLe rs a b || rankLe rs b a) = true := by
    intro a b
    simp only [rankLe, Bool.or_eq_true, decide_eq_true_iff]
    exact le_total _ _
  have h := List.sorted_mergeSort htrans htotal rs
  exact h.imp (fun hab => by simpa [rankLe] using hab)

theorem rankResponses_mem {rs : List ModelResponse} {r : ModelResponse}
    (h : r ∈ rankResponses rs) : r ∈ rs :=
  (rankResponses_perm rs).mem_iff.mp h

/-- With pairwise-distinct keys and a disjoint accumulator, the scores
loop just appends one entry per response, in order. -/
theorem foldl_insertScore (rs : List ModelResponse)
    (acc : List (ModelName × ScoreBreakdown))
    (hnd : (rs.map (fun r => r.model)).Nodup)
    (hdisj : ∀ r ∈ rs, ∀ p ∈ acc, p.1 ≠ r.model) :
    rs.foldl (fun acc r => insertScore acc r.model (scoreProposal r)) acc
      = acc ++ rs.map (fun r => (r.model, scoreProposal r)) := by
  induction rs generalizing acc with
  | nil => simp
  | cons a as ih =>
    simp only [List.foldl_cons]
    have hnotin : acc.any (fun p => p.1 == a.model) = false := by
      rw [List.any_eq_false]
      intro p hp
      simp only [modelName_beq, decide_eq_true_iff]
      exact hdisj a (List.mem_cons_self a as) p hp
    have hins : insertScore acc a.model (scoreProposal a)
        = acc ++ [(a.model, scoreProposal a)] := by
      rw [insertScore, hnotin]
      simp
    rw [hins]
    simp only [List.map_cons, List.nodup_cons] at hnd
    rw [ih (acc ++ [(a.model, scoreProposal a)]) hnd.2]
    · simp
    · intro r hr p hp
      rcases List.mem_append.mp hp with hp | hp
      · exact hdisj r (List.mem_cons_of_mem a hr) p hp
      · simp only [List.mem_singleton] at hp
        subst hp
        intro hcontra
        have ham : a.model = r.model := hcontra
        exact hnd.1 (ham ▸ List.mem_map_of_mem (fun r => r.model) hr)

theorem buildScores_eq (rs : List ModelResponse)
    (hnd : (rs.map (fun r => r.model)).Nodup) :
    buildScores rs = rs.map (fun r => (r.model, scoreProposal r)) := by
  have h := foldl_insertScore rs [] hnd (by simp)
  simpa [buildScores] using h

theorem find?_scores_of_nodup {rs : List ModelResponse}
    (hnd : (rs.map (fun r => r.model)).Nodup) {r : ModelResponse} (hr : r ∈ rs) :
    (rs.map (fun x => (x.model, scoreProposal x))).find? (fun p => p.1 == r.model)
      = some (r.model, scoreProposal r) := by
  induction rs with
  | nil => cases hr
  | cons a as ih =>
    simp only [List.map_cons, List.nodup_cons] at hnd
    by_cases hme : a.model = r.model
    · have hbeq : (a.model == r.model) = true := by
        simp [modelName_beq, hme]
      rcases List.mem_cons.mp hr with rfl | hmem
      · simp only [List.map_cons]
        exact List.find?_cons_of_pos _ hbeq
      · exfalso
        exact hnd.1 (hme ▸ List.mem_map_of_mem (fun r => r.model) hmem)
    · have hbeq : (a.model == r.model) = false := by
        simp [modelName_beq, hme]
      have hmem : r ∈ as := by
        rcases List.mem_cons.mp hr with rfl | hmem
        · exact absurd rfl hme
        · exact hmem
      simp only [List.map_cons]
      rw [List.find?_cons_of_neg _ (by simp [hbeq])]
      exact ih hnd.2 hmem

/-- Under distinct model names, the record lookup used by the comparator
and the branches returns each response's own score. -/
theorem scoreFor_eq {rs : List ModelResponse}
    (hnd : (rs.map (fun r => r.model)).Nodup) {r : ModelResponse} (hr : r ∈ rs) :
    scoreFor rs r.model = scoreProposal r := by
  rw [scoreFor, lookupScore, buildScores_eq rs hnd, find?_scores_of_nodup hnd hr]
  rfl

/-! ## Closedness of fenced blocks -/

/-- Does the text contain an opening fence and, at least 3 characters
further, a second fence?  A successful block match requires this. -/
def twoFences (l : List Char) : Bool :=
  l.tails.any (fun s => fenceAt s && (s.drop 3).tails.any fenceAt)

theorem splitAtFence_fence {l b r : List Char} (h : splitAtFence l = some (b, r)) :
    ∃ s, s <:+ l ∧ fenceAt s = true := by
  induction l generalizing b r with
  | nil => simp [splitAtFence] at h
  | cons c rest ih =>
    rw [splitAtFence] at h
    split at h
    · exact ⟨c :: rest, List.suffix_refl _, by assumption⟩
    · revert h
      split
      · next b' r' heq =>
        intro h
        obtain ⟨s, hs, hf⟩ := ih heq
        exact ⟨s, hs.trans (List.suffix_cons c rest), hf⟩
      · intro h
        cases h

theorem afterLastNlInWs_suffix {l r : List Char} (h : afterLastNlInWs l = some r) :
    r <:+ l := by
  induction l generalizing r with
  | nil => simp [afterLastNlInWs] at h
  | cons c rest ih =>
    rw [afterLastNlInWs] at h
    split at h
    · revert h
      split
      · next r' heq =>
        intro h
        cases h
        exact (ih heq).trans (List.suffix_cons c rest)
      · intro h
        split at h
        · cases h
          exact List.suffix_cons c rest
        · cases h
    · cases h

theorem parseFenceTag_snd_suffix (r : List Char) : (parseFenceTag r).2 <:+ r := by
  have hdw : r.dropWhile isWordChar <:+ r := List.dropWhile_suffix _
  rw [parseFenceTag]
  split
  · next l1' heq =>
    rw [heq] at hdw
    split
    · exact hdw
    · exact ((List.dropWhile_suffix _).trans (List.suffix_cons ':' l1')).trans hdw
  · exact hdw

theorem tryFenceMatch_twoFences {l : List Char} {x : List Char × List Char × List Char}
    (h : tryFenceMatch l = some x) : twoFences l = true := by
  rw [tryFenceMatch] at h
  split at h
  · next hfence =>
    revert h
    split
    · intro h; cases h
    · next bodyStart hbs =>
      intro h
      have hsuf : bodyStart <:+ l.drop 3 :=
        (afterLastNlInWs_suffix hbs).trans (parseFenceTag_snd_suffix _)
      split at h
      · next body rest hsf =>
        obtain ⟨s, hs, hf⟩ := splitAtFence_fence hsf
        rw [twoFences, List.any_eq_true]
        refine ⟨l, (List.mem_tails _ _).mpr (List.suffix_refl l), ?_⟩
        rw [Bool.and_eq_true, List.any_eq_true]
        exact ⟨hfence, s, (List.mem_tails _ _).mpr (hs.trans hsuf), hf⟩
      · cases h
  · cases h

theorem twoFences_tail {c : Char} {rest : List Char}
    (h : twoFences (c :: rest) = false) : twoFences rest = false := by
  rw [twoFences, List.tails_cons] at h
  simp only [List.any_cons, Bool.or_eq_false_iff] at h
  exact h.2

theorem extractBlocksAuxF_nil : ∀ (fuel : ℕ) (l : List Char),
    twoFences l = false → extractBlocksAuxF fuel l = [] := by
  intro fuel
  induction fuel with
  | zero =>
    intro l _
    cases l <;> rfl
  | succ n ih =>
    intro l htf
    cases l with
    | nil => rfl
    | cons c rest =>
      rw [extractBlocksAuxF]
      cases htm : tryFenceMatch (c :: rest) with
      | some x =>
        exact absurd (tryFenceMatch_twoFences htm) (by rw [htf]; simp)
      | none =>
        exact ih rest (twoFences_tail htf)

/-! ## Hunk parsing lemmas -/

theorem parseHunkHeader_mark {l : List Char} (h : (parseHunkHeader l).isSome = true) :
    atHunkMark l = true := by
  rw [parseHunkHeader] at h
  by_cases hm : atHunkMark l = true
  · exact hm
  · rw [if_neg hm] at h
    simp at h

theorem parseHunksF_nil (tf : String) (fuel : ℕ) : parseHunksF tf fuel [] = [] := by
  cases fuel <;> rfl

theorem parseHunksF_len : ∀ (fuel : ℕ) (lines : List (List Char)) (tf : String),
    lines.length ≤ fuel →
    (parseHunksF tf fuel lines).length
      = lines.countP (fun l => (parseHunkHeader l).isSome) := by
  intro fuel
  induction fuel with
  | zero =>
    intro lines tf hl
    have heq : lines = [] := List.length_eq_zero.mp (Nat.le_zero.mp hl)
    subst heq
    rfl
  | succ n ih =>
    intro lines tf hl
    match lines with
    | [] => rfl
    | line :: rest =>
      rw [parseHunksF]
      simp only [List.length_cons] at hl
      split
      · next startL oldCount hh =>
        have hcw : rest.countP (fun l => (parseHunkHeader l).isSome)
            = (rest.dropWhile (fun l => !atHunkMark l)).countP
                (fun l => (parseHunkHeader l).isSome) := by
          conv_lhs => rw [← List.takeWhile_append_dropWhile (fun l => !atHunkMark l) rest]
          rw [List.countP_append]
          have hz : (rest.takeWhile (fun l => !atHunkMark l)).countP
              (fun l => (parseHunkHeader l).isSome) = 0 := by
            rw [List.countP_eq_zero]
            intro a ha
            have hmark := List.mem_takeWhile_imp ha
            simp only [Bool.not_eq_true'] at hmark
            intro hsome
            rw [parseHunkHeader_mark hsome] at hmark
            cases hmark
          omega
        have hdl : (rest.dropWhile (fun l => !atHunkMark l)).length ≤ n := by
          have := (@List.dropWhile_sublist _ rest (fun l => !atHunkMark l)).length_le
          omega
        simp only [List.length_cons, List.countP_cons, hh]
        rw [ih _ tf hdl]
        simp [← hcw]
      · next hh =>
        simp only [List.countP_cons, hh]
        rw [ih rest tf (by omega)]
        simp

theorem parseHunks_len (lines : List (List Char)) (tf : String) :
    (parseHunks lines tf).length
      = lines.countP (fun l => (parseHunkHeader l).isSome) :=
  parseHunksF_len lines.length lines tf le_rfl

theorem parseHunksF_mem : ∀ (fuel : ℕ) (lines : List (List Char)) (tf : String),
    lines.length ≤ fuel →
    ∀ e ∈ parseHunksF tf fuel lines, e.file = tf ∧ e.action = .replace ∧
      ∃ r, e.range = some r ∧ r.startChar = 0 ∧ r.endChar = 0 ∧ r.startLine ≤ r.endLine := by
  intro fuel
  induction fuel with
  | zero =>
    intro lines tf hl
    have heq : lines = [] := List.length_eq_zero.mp (Nat.le_zero.mp hl)
    subst heq
    intro e he
    cases he
  | succ n ih =>
    intro lines tf hl
    match lines with
    | [] =>
      intro e he
      cases he
    | line :: rest =>
      rw [parseHunksF]
      simp only [List.length_cons] at hl
      split
      · next startL oldCount hh =>
        intro e he
        rcases List.mem_cons.mp he with rfl | he
        · refine ⟨rfl, rfl, _, rfl, rfl, rfl, ?_⟩
          show (startL : ℤ) - 1 ≤ (startL : ℤ) - 1 + (oldCount : ℤ)
          omega
        · have hdl : (rest.dropWhile (fun l => !atHunkMark l)).length ≤ n := by
            have := (@List.dropWhile_sublist _ rest (fun l => !atHunkMark l)).length_le
            omega
          exact ih _ tf hdl e he
      · next hh =>
        intro e he
        exact ih rest tf (by omega) e he

theorem parseHunks_mem (lines : List (List Char)) (tf : String) :
    ∀ e ∈ parseHunks lines tf, e.file = tf ∧ e.action = .replace ∧
      ∃ r, e.range = some r ∧ r.startChar = 0 ∧ r.endChar = 0 ∧ r.startLine ≤ r.endLine :=
  parseHunksF_mem lines.length lines tf le_rfl

theorem parseHunks_single {hl : List Char} {startL oldc : ℕ} {body : List (List Char)}
    {tf : String} (hh : parseHunkHeader hl = some (startL, oldc))
    (hb : ∀ l ∈ body, atHunkMark l = false) :
    parseHunks (hl :: body) tf =
      [{ file := tf
         range := some { startLine := (startL : ℤ) - 1, startChar := 0,
                         endLine := (startL : ℤ) - 1 + (oldc : ℤ), endChar := 0 }
         newText := String.mk (joinNl (hunkNewLines body))
         action := .replace }] := by
  rw [parseHunks]
  simp only [List.length_cons]
  rw [parseHunksF, hh]
  have htake : body.takeWhile (fun l => !atHunkMark l) = body :=
    List.takeWhile_eq_self_iff.mpr (fun x hx => by simp [hb x hx])
  have hdrop : body.dropWhile (fun l => !atHunkMark l) = [] :=
    List.dropWhile_eq_nil_iff.mpr (fun x hx => by simp [hb x hx])
  rw [htake, hdrop, parseHunksF_nil]

/-! ## Patch-engine facts -/

theorem string_mk_ne_empty {l : List Char} (h : l ≠ []) : String.mk l ≠ "" :=
  fun hc => h (congrArg String.data hc)

/-- The `+++ `-scan of `parseDiffToEdits` never produces an empty target
file name when the fallback is non-empty. -/
theorem diffTarget_ne_empty (hdr : List (List Char)) (fb : String) (hfb : fb ≠ "")
    (acc : String) (hacc : acc ≠ "") :
    hdr.foldl (fun tf l =>
      if "+++ ".data.isPrefixOf l then
        if (trimChars (stripDiffB (l.drop 4))).isEmpty then fb
        else String.mk (trimChars (stripDiffB (l.drop 4)))
      else tf) acc ≠ "" := by
  induction hdr generalizing acc with
  | nil => exact hacc
  | cons l ls ih =>
    simp only [List.foldl_cons]
    apply ih
    split
    · split
      · exact hfb
      · next hne =>
        exact string_mk_ne_empty (by simpa using hne)
    · exact hacc

theorem parseDiffToEdits_mem {b : CodeBlock} {cur : String} (hcur : cur ≠ "") :
    ∀ e ∈ parseDiffToEdits b cur, e.file ≠ "" ∧ e.action = .replace ∧
      ∃ r, e.range = some r ∧ r.startChar = 0 ∧ r.endChar = 0 ∧ r.startLine ≤ r.endLine := by
  intro e he
  rw [parseDiffToEdits] at he
  have hfacts := parseHunks_mem _ _ e he
  obtain ⟨hfile, hact, r, hr⟩ := hfacts
  refine ⟨?_, hact, r, hr⟩
  rw [hfile]
  exact diffTarget_ne_empty _ cur hcur cur hcur

theorem resolveName_ne_empty (b : CodeBlock) {cur : String} (hcur : cur ≠ "") :
    resolveName b cur ≠ "" := by
  rw [resolveName]
  rcases b.filename with _ | f
  · rw [jsOrFile]
    rcases extractFilenameHint b.code with _ | h
    · exact hcur
    · rw [jsOrFile]
      split
      · exact hcur
      · assumption
  · rw [jsOrFile]
    split
    · rcases extractFilenameHint b.code with _ | h
      · exact hcur
      · rw [jsOrFile]
        split
        · exact hcur
        · assumption
    · assumption

theorem parseDiffToEdits_length (b : CodeBlock) (cur : String) :
    (parseDiffToEdits b cur).length =
      (splitLines b.code.data).countP (fun l => (parseHunkHeader l).isSome) := by
  rw [parseDiffToEdits]
  rw [parseHunks_len]
  conv_rhs => rw [← List.takeWhile_append_dropWhile (fun l => !atHunkMark l) (splitLines b.code.data)]
  rw [List.countP_append]
  have hz : ((splitLines b.code.data).takeWhile (fun l => !atHunkMark l)).countP
      (fun l => (parseHunkHeader l).isSome) = 0 := by
    rw [List.countP_eq_zero]
    intro a ha
    have hmark := List.mem_takeWhile_imp ha
    simp only [Bool.not_eq_true'] at hmark
    intro hsome
    rw [parseHunkHeader_mark hsome] at hmark
    cases hmark
  omega

/-- `block.filename && block.filename !== currentFile` is truthy iff the
segment carries an explicit non-empty filename different from the current
file. -/
theorem isNewFile_iff (b : CodeBlock) (cur : String) :
    isNewFile b cur = true ↔ ∃ f, b.filename = some f ∧ f ≠ "" ∧ f ≠ cur := by
  rw [isNewFile]
  rcases hf : b.filename with _ | f
  · simp
  · simp [Bool.and_eq_true]

/-- Unfolding of `buildEdits` on a single non-diff segment. -/
theorem buildEdits_single_nonDiff (b : CodeBlock) (cur : String) (sel : Option SelRange)
    (hd : b.isDiff = false) :
    buildEdits [b] cur sel =
      (if isNewFile b cur then
        [{ file := resolveName b cur, newText := b.code, action := .create }]
      else
        match sel with
        | some r =>
          [{ file := resolveName b cur, range := some r, newText := b.code, action := .replace }]
        | none =>
          [{ file := resolveName b cur, newText := b.code, action := .full }]) := by
  rw [buildEdits]
  simp only [List.flatMap_cons, List.flatMap_nil, List.append_nil, hd]
  rw [if_neg (by simp)]

/-! ## Ranking facts -/

theorem ranked_shape {rs : List ModelResponse} (h2 : 2 ≤ rs.length) :
    ∃ r0 r1 t, rankResponses rs = r0 :: r1 :: t := by
  have hlen : 2 ≤ (rankResponses rs).length := by
    rw [rankResponses_length]
    exact h2
  match hr : rankResponses rs with
  | [] => rw [hr] at hlen; simp at hlen
  | [x] => rw [hr] at hlen; simp at hlen
  | r0 :: r1 :: t => exact ⟨r0, r1, t, rfl⟩

theorem rankedTop_eq {rs r0 r1 t} (h : rankResponses rs = r0 :: r1 :: t) :
    rankedTop rs = r0 := by
  rw [rankedTop, h]
  rfl

theorem rankedSecond_eq {rs r0 r1 t} (h : rankResponses rs = r0 :: r1 :: t) :
    rankedSecond rs = r1 := by
  rw [rankedSecond, h]
  rfl

theorem rankedTop_mem {rs : List ModelResponse} (h2 : 2 ≤ rs.length) :
    rankedTop rs ∈ rs := by
  obtain ⟨r0, r1, t, h⟩ := ranked_shape h2
  rw [rankedTop_eq h]
  exact rankResponses_mem (h ▸ List.mem_cons_self r0 (r1 :: t))

theorem rankedSecond_mem {rs : List ModelResponse} (h2 : 2 ≤ rs.length) :
    rankedSecond rs ∈ rs := by
  obtain ⟨r0, r1, t, h⟩ := ranked_shape h2
  rw [rankedSecond_eq h]
  exact rankResponses_mem (h ▸ List.mem_cons_of_mem r0 (List.mem_cons_self r1 t))

theorem gapOf_nonneg {rs : List ModelResponse} (h2 : 2 ≤ rs.length) :
    0 ≤ gapOf rs := by
  obtain ⟨r0, r1, t, h⟩ := ranked_shape h2
  have hp := rankResponses_sorted rs
  rw [h, List.pairwise_cons] at hp
  have hrel := hp.1 r1 (List.mem_cons_self r1 t)
  rw [gapOf, rankedTop_eq h, rankedSecond_eq h]
  linarith

/-- With distinct models, the gap is the difference of the top two
responses' own totals. -/
theorem gapOf_eq {rs r0 r1 t} (hnd : (rs.map (fun r => r.model)).Nodup)
    (h : rankResponses rs = r0 :: r1 :: t) :
    gapOf rs = (scoreProposal r0).total - (scoreProposal r1).total := by
  have hm0 : r0 ∈ rs := rankResponses_mem (h ▸ List.mem_cons_self r0 (r1 :: t))
  have hm1 : r1 ∈ rs := rankResponses_mem (h ▸ List.mem_cons_of_mem r0 (List.mem_cons_self r1 t))
  rw [gapOf, rankedTop_eq h, rankedSecond_eq h, scoreFor_eq hnd hm0, scoreFor_eq hnd hm1]

theorem normalizeTotal_nonneg (t : ℚ) : 0 ≤ normalizeTotal t :=
  le_min (by norm_num) (le_max_left 0 (t / 10))

theorem normalizeTotal_le_one (t : ℚ) : normalizeTotal t ≤ 1 :=
  min_le_left 1 _

/-! ## Danger-pattern facts -/

theorem matchToks_rmRf (rest : List Char) :
    matchToks true rmRfPat.2 ('r' :: 'm' :: ' ' :: '-' :: 'r' :: 'f' :: rest) = true := rfl

theorem testPat_rmRf_of_contains {code : String} (h : "rm -rf".data <:+: code.data) :
    testPat rmRfPat code = true := by
  obtain ⟨s, t, heq⟩ := h
  rw [testPat, searchToks, List.any_eq_true]
  refine ⟨"rm -rf".data ++ t, (List.mem_tails _ _).mpr ⟨s, by rw [← List.append_assoc, heq]⟩, ?_⟩
  exact matchToks_rmRf t

theorem dangerCount_pos {blocks : List CodeBlock} {b : CodeBlock} (hb : b ∈ blocks)
    (h : testPat rmRfPat b.code = true) : 1 ≤ dangerCount blocks := by
  rw [dangerCount]
  have hmem : rmRfPat ∈ dangerPatterns.filter
      (fun p => blocks.any fun bb => testPat p bb.code) := by
    rw [List.mem_filter]
    exact ⟨by rw [dangerPatterns]; exact List.mem_cons_self _ _,
      List.any_eq_true.mpr ⟨b, hb, h⟩⟩
  have := List.length_pos.mpr (List.ne_nil_of_mem hmem)
  omega

/-! ## Critique-pass facts -/

theorem find?_sigs_of_nodup {rs : List ModelResponse}
    (hnd : (rs.map (fun r => r.model)).Nodup) {r : ModelResponse} (hr : r ∈ rs) :
    (rs.map codeSignatureOf).find? (fun s => s.model == r.model)
      = some (codeSignatureOf r) := by
  induction rs with
  | nil => cases hr
  | cons a as ih =>
    simp only [List.map_cons, List.nodup_cons] at hnd
    by_cases hme : a.model = r.model
    · have hbeq : ((codeSignatureOf a).model == r.model) = true := by
        simp [codeSignatureOf, modelName_beq, hme]
      rcases List.mem_cons.mp hr with rfl | hmem
      · simp only [List.map_cons]
        exact List.find?_cons_of_pos _ hbeq
      · exfalso
        exact hnd.1 (hme ▸ List.mem_map_of_mem (fun r => r.model) hmem)
    · have hbeq : ((codeSignatureOf a).model == r.model) = false := by
        simp [codeSignatureOf, modelName_beq, hme]
      have hmem : r ∈ as := by
        rcases List.mem_cons.mp hr with rfl | hmem
        · exact absurd rfl hme
        · exact hmem
      simp only [List.map_cons]
      rw [List.find?_cons_of_neg _ (by simp [hbeq])]
      exact ih hnd.2 hmem

/-! ## Example data for counterexamples and witnesses -/

/-- A non-diff segment whose only filename source is a body hint. -/
def hintOnlyBlock : CodeBlock :=
  { language := "typescript", code := "// filename: other.ts\nconsole.log(1)",
    filename := none, isDiff := false }

/-- The spec's round-trip diff hunk: one removed line, two added lines, no
context lines. -/
def roundTripBlock : CodeBlock :=
  { language := "diff", code := "@@ -5,2 +5,3 @@\n-old line\n+new line A\n+new line B",
    filename := none, isDiff := true }

/-- A diff-classified segment with no hunk headers at all. -/
def headerlessBlock : CodeBlock :=
  { language := "diff", code := "just some text\nwith no markers", filename := none,
    isDiff := true }

/-- Two responses sharing the same model name, with out-of-range
confidence: a data-model violation that `runConsensus` does not detect. -/
def dupResponses : List ModelResponse :=
  [ { model := .chatgpt, proposal := "first", codeBlocks := [], confidence := 2 },
    { model := .chatgpt, proposal := "second", codeBlocks := [], confidence := 2 } ]

/-- Two well-formed responses with distinct models. -/
def wellFormedPair : List ModelResponse :=
  [ { model := .chatgpt, proposal := "alpha", codeBlocks := [], confidence := 1 },
    { model := .claude, proposal := "beta", codeBlocks := [], confidence := 0 } ]

/-- A block containing a destructive filesystem command. -/
def rmBlock : CodeBlock :=
  { language := "bash", code := "rm -rf /tmp/x", filename := none, isDiff := false }

/-- A response whose only code block contains `rm -rf`. -/
def rmResponse : ModelResponse :=
  { model := .claude, proposal := "try this", codeBlocks := [rmBlock], confidence := 1/2 }

/-- Markdown with an opening fence that is never closed. -/
def unclosedMarkdown : String :=
  "```python\ndef f():\n    return 1"

/-! ## The claims -/

theorem consensusResult_multi {rs : List ModelResponse} (h2 : 2 ≤ rs.length)
    (f : String) (sel : Option SelRange) :
    consensusResult rs f sel = multiResult rs f sel := by
  match rs, h2 with
  | _ :: _ :: _, _ => rfl

theorem multiResult_strategy (rs : List ModelResponse) (f : String) (sel : Option SelRange) :
    (multiResult rs f sel).mergeStrategy = (strategyChoice rs).1 := rfl

theorem multiResult_final (rs : List ModelResponse) (f : String) (sel : Option SelRange) :
    (multiResult rs f sel).finalProposal = (strategyChoice rs).2.1 := rfl

theorem multiResult_winner (rs : List ModelResponse) (f : String) (sel : Option SelRange) :
    (multiResult rs f sel).winnerModel = (strategyChoice rs).2.2 := rfl

theorem strategyChoice_clear {rs : List ModelResponse} (h : gapOf rs > 1.5) :
    strategyChoice rs =
      (.clear_winner, (rankedTop rs).proposal, (rankedTop rs).model) := by
  rw [strategyChoice, if_pos h]

theorem strategyChoice_merge {rs : List ModelResponse} (h1 : ¬gapOf rs > 1.5)
    (h2 : gapOf rs ≤ 1.5 ∧ gapOf rs ≥ 0) :
    strategyChoice rs =
      (.merged, mergeProposals (rankedTop rs) (rankedSecond rs), (rankedTop rs).model) := by
  rw [strategyChoice, if_neg h1, if_pos h2]

/-- C1.  For two or more responses with pairwise-distinct model names (the
data model uses the participant as a map key), `runConsensus` ranks the
responses by total score descending; with `gap` the difference of the top
two totals, `gap > 1.5` yields `clear_winner` with the top response's raw
text and participant, and `0 ≤ gap ≤ 1.5` yields `merged` with
`mergeProposals(top, second)` and the top participant. -/
theorem c1_strategy_by_gap (rs : List ModelResponse) (f : String) (sel : Option SelRange)
    (h2 : 2 ≤ rs.length) (hnd : (rs.map (fun r => r.model)).Nodup) :
    ∃ r0 r1 t, rankResponses rs = r0 :: r1 :: t ∧
      (rankResponses rs).Perm rs ∧
      (rankResponses rs).Pairwise
        (fun a b => (scoreProposal b).total ≤ (scoreProposal a).total) ∧
      ((scoreProposal r0).total - (scoreProposal r1).total > 1.5 →
        (consensusResult rs f sel).mergeStrategy = .clear_winner ∧
        (consensusResult rs f sel).finalProposal = r0.proposal ∧
        (consensusResult rs f sel).winnerModel = r0.model) ∧
      (0 ≤ (scoreProposal r0).total - (scoreProposal r1).total ∧
          (scoreProposal r0).total - (scoreProposal r1).total ≤ 1.5 →
        (consensusResult rs f sel).mergeStrategy = .merged ∧
        (consensusResult rs f sel).finalProposal = mergeProposals r0 r1 ∧
        (consensusResult rs f sel).winnerModel = r0.model) := by
  obtain ⟨r0, r1, t, hsh⟩ := ranked_shape h2
  have hsorted' : (rankResponses rs).Pairwise
      (fun a b => (scoreProposal b).total ≤ (scoreProposal a).total) := by
    refine (rankResponses_sorted rs).imp_of_mem ?_
    intro a b ha hb hab
    rw [scoreFor_eq hnd (rankResponses_mem ha), scoreFor_eq hnd (rankResponses_mem hb)] at hab
    exact hab
  have hgap := gapOf_eq hnd hsh
  rw [consensusResult_multi h2 f sel]
  refine ⟨r0, r1, t, hsh, rankResponses_perm rs, hsorted', ?_, ?_⟩
  · intro hgt
    have hc := @strategyChoice_clear rs (by rw [hgap]; exact hgt)
    rw [multiResult_strategy, multiResult_final, multiResult_winner, hc,
      rankedTop_eq hsh]
    exact ⟨rfl, rfl, rfl⟩
  · intro hle
    have hc := @strategyChoice_merge rs
      (by rw [hgap]; exact not_lt.mpr hle.2) (by rw [hgap]; exact ⟨hle.2, hle.1⟩)
    rw [multiResult_strategy, multiResult_final, multiResult_winner, hc,
      rankedTop_eq hsh, rankedSecond_eq hsh]
    exact ⟨rfl, rfl, rfl⟩

theorem c1_strategy_by_gap_witness :
    ∃ r0 r1 t, rankResponses wellFormedPair = r0 :: r1 :: t ∧
      (rankResponses wellFormedPair).Perm wellFormedPair ∧
      (rankResponses wellFormedPair).Pairwise
        (fun a b => (scoreProposal b).total ≤ (scoreProposal a).total) ∧
      ((scoreProposal r0).total - (scoreProposal r1).total > 1.5 →
        (consensusResult wellFormedPair "a.ts" none).mergeStrategy = .clear_winner ∧
        (consensusResult wellFormedPair "a.ts" none).finalProposal = r0.proposal ∧
        (consensusResult wellFormedPair "a.ts" none).winnerModel = r0.model) ∧
      (0 ≤ (scoreProposal r0).total - (scoreProposal r1).total ∧
          (scoreProposal r0).total - (scoreProposal r1).total ≤ 1.5 →
        (consensusResult wellFormedPair "a.ts" none).mergeStrategy = .merged ∧
        (consensusResult wellFormedPair "a.ts" none).finalProposal = mergeProposals r0 r1 ∧
        (consensusResult wellFormedPair "a.ts" none).winnerModel = r0.model) :=
  c1_strategy_by_gap wellFormedPair "a.ts" none (by decide) (by decide)

/-- C5.  For every non-empty response list, `runConsensus` never chooses
`judge_fallback`: after the descending sort the gap between the top two
looked-up totals is non-negative, so the `gap < 0` branch is dead (the
single-response branch returns `clear_winner` outright).  No assumption
on the confidence values is needed. -/
theorem c5_no_judge_fallback (rs : List ModelResponse) (f : String) (sel : Option SelRange)
    (hne : rs ≠ []) :
    (consensusResult rs f sel).mergeStrategy ≠ .judge_fallback := by
  match rs with
  | [] => exact absurd rfl hne
  | [sole] =>
    intro h
    exact absurd h (by simp [consensusResult])
  | a :: b :: u =>
    have h2 : 2 ≤ (a :: b :: u).length := by simp
    have hgap := gapOf_nonneg h2
    rw [consensusResult_multi h2 f sel, multiResult_strategy, strategyChoice]
    split
    · simp
    · split
      · simp
      · next h1 h2' =>
        exfalso
        exact h2' ⟨le_of_not_lt h1, hgap⟩

theorem c5_no_judge_fallback_witness :
    (consensusResult wellFormedPair "a.ts" none).mergeStrategy ≠ .judge_fallback :=
  c5_no_judge_fallback wellFormedPair "a.ts" none (by decide)

/-- C9.  `runConsensus` throws exactly on the empty response list; on any
non-empty list it returns a `ConsensusResult` (the rest of the pipeline
is total). -/
theorem c9_throws_iff_empty (rs : List ModelResponse) (f : String) (sel : Option SelRange) :
    (∃ e, runConsensus rs f sel = Except.error e) ↔ rs = [] := by
  rw [runConsensus]
  cases rs with
  | nil => simp
  | cons a t => simp

/-- C10.  `extractCodeBlocks` yields a segment only for a fenced block
closed by a matching fence: whenever the text contains no fence followed,
at least three characters later, by a second fence — in particular when
some opening fence is never closed — the result is empty.  The function
is a total Lean definition, so it returns (never raises) on every input. -/
theorem c10_unclosed_fence_no_segment (markdown : String)
    (h : twoFences markdown.data = false) :
    extractCodeBlocks markdown = [] := by
  rw [extractCodeBlocks]
  exact extractBlocksAuxF_nil markdown.data.length markdown.data h

theorem c10_unclosed_fence_no_segment_witness :
    extractCodeBlocks unclosedMarkdown = [] :=
  c10_unclosed_fence_no_segment unclosedMarkdown (by decide)

/-- C2 (counterexample).  As stated over *every* non-empty response list,
the claim fails: with two responses sharing one model name the `scores`
record keeps a single entry (the second assignment overwrites the first),
and the result's `confidence` is the top response's confidence verbatim —
`runConsensus` never clamps it — so an out-of-range input confidence
passes straight through. -/
theorem c2_counterexample :
    ∃ res, runConsensus dupResponses "a.ts" none = Except.ok res ∧
      res.scores.length = 1 ∧ dupResponses.length = 2 ∧ res.confidence = 2 := by
  refine ⟨consensusResult dupResponses "a.ts" none, rfl, by decide, rfl, ?_⟩
  have h2 : 2 ≤ dupResponses.length := by decide
  have hmem := rankedTop_mem h2
  have hconf : (consensusResult dupResponses "a.ts" none).confidence
      = (rankedTop dupResponses).confidence := rfl
  rw [hconf]
  rcases List.mem_cons.mp hmem with h | h
  · rw [h]
  · have h' := List.mem_singleton.mp (by simpa [dupResponses] using h)
    rw [show rankedTop dupResponses = _ from h']

/-- C2 (amended).  For every non-empty response list whose model names are
pairwise distinct and whose confidences lie in `[0,1]` — both are
invariants of the data model — the result has exactly one `scores` entry
per response (carrying that response's own breakdown), `consensusScore`
is clamped to `[0,1]`, and `confidence`, copied verbatim from the
top-ranked response, stays in `[0,1]`. -/
theorem c2_scores_and_clamping (rs : List ModelResponse) (f : String) (sel : Option SelRange)
    (hne : rs ≠ []) (hnd : (rs.map (fun r => r.model)).Nodup)
    (hconf : ∀ r ∈ rs, 0 ≤ r.confidence ∧ r.confidence ≤ 1) :
    (consensusResult rs f sel).scores.length = rs.length ∧
    (∀ r ∈ rs, lookupScore (consensusResult rs f sel).scores r.model
      = some (scoreProposal r)) ∧
    0 ≤ (consensusResult rs f sel).consensusScore ∧
    (consensusResult rs f sel).consensusScore ≤ 1 ∧
    0 ≤ (consensusResult rs f sel).confidence ∧
    (consensusResult rs f sel).confidence ≤ 1 := by
  match rs with
  | [] => exact absurd rfl hne
  | [sole] =>
    refine ⟨rfl, ?_, normalizeTotal_nonneg _, normalizeTotal_le_one _, ?_, ?_⟩
    · intro r hr
      rcases List.mem_singleton.mp hr with rfl
      show lookupScore [(r.model, scoreProposal r)] r.model = some (scoreProposal r)
      rw [lookupScore, List.find?_cons_of_pos _ (by simp [modelName_beq])]
      rfl
    · exact (hconf sole (List.mem_singleton_self sole)).1
    · exact (hconf sole (List.mem_singleton_self sole)).2
  | a :: b :: u =>
    have h2 : 2 ≤ (a :: b :: u).length := by simp
    rw [consensusResult_multi h2 f sel]
    have htop := rankedTop_mem h2
    refine ⟨?_, ?_, normalizeTotal_nonneg _, normalizeTotal_le_one _,
      (hconf _ htop).1, (hconf _ htop).2⟩
    · show (buildScores (a :: b :: u)).length = _
      rw [buildScores_eq _ hnd]
      simp
    · intro r hr
      show lookupScore (buildScores (a :: b :: u)) r.model = some (scoreProposal r)
      rw [lookupScore, buildScores_eq _ hnd, find?_scores_of_nodup hnd hr]
      rfl

theorem c2_scores_and_clamping_witness :
    (consensusResult wellFormedPair "a.ts" none).scores.length = wellFormedPair.length ∧
    (∀ r ∈ wellFormedPair, lookupScore (consensusResult wellFormedPair "a.ts" none).scores
      r.model = some (scoreProposal r)) ∧
    0 ≤ (consensusResult wellFormedPair "a.ts" none).consensusScore ∧
    (consensusResult wellFormedPair "a.ts" none).consensusScore ≤ 1 ∧
    0 ≤ (consensusResult wellFormedPair "a.ts" none).confidence ∧
    (consensusResult wellFormedPair "a.ts" none).confidence ≤ 1 :=
  c2_scores_and_clamping wellFormedPair "a.ts" none (by decide) (by decide) (by decide)

/-- C3 (counterexample).  The claim says any resolved filename different
from `currentFile` forces `action = create`, regardless of the filename's
source.  It fails when the filename comes from a body hint: `buildEdits`
resolves `other.ts` from the `// filename:` comment (and stores it in the
edit's `file`), but the `create` test looks only at `block.filename`,
which is absent, so the edit's action is `full`. -/
theorem c3_counterexample :
    buildEdits [hintOnlyBlock] "main.ts" none =
      [{ file := "other.ts", newText := hintOnlyBlock.code, action := .full }] ∧
    ("other.ts" : String) ≠ "main.ts" := by
  constructor
  · decide
  · decide

/-- C3 (amended).  `buildEdits` resolves the target filename as
`segment.filename`, else a body hint, else `currentFile`, and stores it
in the edit's `file`; but `action = create` exactly when the *segment's
own* `filename` field is present, non-empty and different from
`currentFile` — a hint-only or default filename yields `replace` (with a
selection) or `full` instead. -/
theorem c3_create_requires_explicit_filename (b : CodeBlock) (cur : String)
    (sel : Option SelRange) (hd : b.isDiff = false) :
    (buildEdits [b] cur sel).length = 1 ∧
    ∀ e ∈ buildEdits [b] cur sel,
      e.file = resolveName b cur ∧
      (e.action = .create ↔ ∃ f, b.filename = some f ∧ f ≠ "" ∧ f ≠ cur) ∧
      (e.action ≠ .create →
        e.action = match sel with | some _ => .replace | none => .full) := by
  rw [buildEdits_single_nonDiff b cur sel hd]
  by_cases hnf : isNewFile b cur = true
  · rw [if_pos hnf]
    refine ⟨rfl, ?_⟩
    intro e he
    rcases List.mem_singleton.mp he with rfl
    exact ⟨rfl, ⟨fun _ => (isNewFile_iff b cur).mp hnf, fun _ => rfl⟩,
      fun hne => absurd rfl hne⟩
  · rw [if_neg hnf]
    cases sel with
    | some r =>
      refine ⟨rfl, ?_⟩
      intro e he
      rcases List.mem_singleton.mp he with rfl
      refine ⟨rfl, ⟨fun hc => EditAction.noConfusion hc, ?_⟩, fun _ => rfl⟩
      intro hex
      exact absurd ((isNewFile_iff b cur).mpr hex) hnf
    | none =>
      refine ⟨rfl, ?_⟩
      intro e he
      rcases List.mem_singleton.mp he with rfl
      refine ⟨rfl, ⟨fun hc => EditAction.noConfusion hc, ?_⟩, fun _ => rfl⟩
      intro hex
      exact absurd ((isNewFile_iff b cur).mpr hex) hnf

theorem c3_create_requires_explicit_filename_witness :
    (buildEdits [hintOnlyBlock] "main.ts" none).length = 1 ∧
    ∀ e ∈ buildEdits [hintOnlyBlock] "main.ts" none,
      e.file = resolveName hintOnlyBlock "main.ts" ∧
      (e.action = .create ↔
        ∃ f, hintOnlyBlock.filename = some f ∧ f ≠ "" ∧ f ≠ "main.ts") ∧
      (e.action ≠ .create →
        e.action = match (none : Option SelRange) with
          | some _ => EditAction.replace | none => EditAction.full) :=
  c3_create_requires_explicit_filename hintOnlyBlock "main.ts" none (by decide)

/-- C4.  The safety sub-score is exactly
`max(0, 10 − 3·(distinct dangerous patterns matched))`; in particular any
response one of whose code segments contains the substring `rm -rf`
matches the destructive-filesystem pattern, so its safety is at most 7. -/
theorem c4_safety_dangerous_patterns (resp : ModelResponse) (b : CodeBlock)
    (hb : b ∈ resp.codeBlocks) (hinf : "rm -rf".data <:+: b.code.data) :
    (scoreProposal resp).safety
      = max 0 (10 - (dangerCount resp.codeBlocks : ℚ) * 3) ∧
    (scoreProposal resp).safety ≤ 7 := by
  have hsafety : (scoreProposal resp).safety
      = max 0 (10 - (dangerCount resp.codeBlocks : ℚ) * 3) := rfl
  refine ⟨hsafety, ?_⟩
  have h1 := dangerCount_pos hb (testPat_rmRf_of_contains hinf)
  have hq : (1 : ℚ) ≤ (dangerCount resp.codeBlocks : ℚ) := by exact_mod_cast h1
  rw [hsafety]
  exact max_le (by norm_num) (by linarith)

theorem c4_safety_dangerous_patterns_witness :
    (scoreProposal rmResponse).safety
      = max 0 (10 - (dangerCount rmResponse.codeBlocks : ℚ) * 3) ∧
    (scoreProposal rmResponse).safety ≤ 7 :=
  c4_safety_dangerous_patterns rmResponse rmBlock (by decide)
    ⟨[], " /tmp/x".data, rfl⟩

/-- C6.  Diff parsing: (1) the spec's round-trip hunk `@@ -5,2 +5,3 @@`
with one removed and two added lines yields exactly one replace edit with
range lines 4–6 and the two added lines joined; (2) `parseDiffToEdits`
emits exactly one edit per valid hunk header; (3) one hunk with header
`(start, oldCount)` and a body free of further `@@` lines yields exactly
the edit `range = [start−1, start−1+oldCount)`, `newText` = the joined
added/context lines; (4) a diff without hunk headers yields no edits
(and no error — the function is total). -/
theorem c6_hunk_edits :
    (parseDiffToEdits roundTripBlock "cur.ts" =
      [{ file := "cur.ts",
         range := some { startLine := 4, startChar := 0, endLine := 6, endChar := 0 },
         newText := "new line A\nnew line B", action := .replace }]) ∧
    (∀ b cur, (parseDiffToEdits b cur).length
      = (splitLines b.code.data).countP (fun l => (parseHunkHeader l).isSome)) ∧
    (∀ hl startL oldc (body : List (List Char)) tf,
      parseHunkHeader hl = some (startL, oldc) →
      (∀ l ∈ body, atHunkMark l = false) →
      parseHunks (hl :: body) tf =
        [{ file := tf,
           range := some { startLine := (startL : ℤ) - 1, startChar := 0,
                           endLine := (startL : ℤ) - 1 + (oldc : ℤ), endChar := 0 },
           newText := String.mk (joinNl (hunkNewLines body)),
           action := .replace }]) ∧
    (∀ b cur, ((splitLines b.code.data).all fun l => (parseHunkHeader l).isNone) →
      parseDiffToEdits b cur = []) := by
  refine ⟨by decide, parseDiffToEdits_length, ?_, ?_⟩
  · intro hl startL oldc body tf hh hb
    exact parseHunks_single hh hb
  · intro b cur hall
    have hlen := parseDiffToEdits_length b cur
    have hz : (splitLines b.code.data).countP (fun l => (parseHunkHeader l).isSome) = 0 := by
      rw [List.countP_eq_zero]
      intro a ha
      have hnone := List.all_eq_true.mp hall a ha
      intro hsome
      rw [Option.isNone_iff_eq_none.mp hnone] at hsome
      cases hsome
    exact List.length_eq_zero.mp (by rw [hlen, hz])

theorem c6_hunk_edits_witness :
    parseDiffToEdits headerlessBlock "f.ts" = [] :=
  c6_hunk_edits.2.2.2 headerlessBlock "f.ts" (by decide)

/-- C7.  For two or more responses with distinct model names and
confidences in `[0,1]`, the critique pass maps each response to a copy
whose confidence is `min(1, confidence + agreementRatio × 0.15)` — so no
response is dropped or reordered and only `confidence` changes — and the
new confidence is at least the old one and at most 1. -/
theorem c7_critique_boost (rs : List ModelResponse) (h2 : 2 ≤ rs.length)
    (hnd : (rs.map (fun r => r.model)).Nodup)
    (hconf : ∀ r ∈ rs, 0 ≤ r.confidence ∧ r.confidence ≤ 1) :
    runCritiqueRound rs = rs.map (fun r =>
      { r with confidence := min 1 (r.confidence + agreementRatioOf rs r * 0.15) }) ∧
    ∀ r ∈ rs,
      r.confidence ≤ min 1 (r.confidence + agreementRatioOf rs r * 0.15) ∧
      min 1 (r.confidence + agreementRatioOf rs r * 0.15) ≤ 1 := by
  constructor
  · rw [runCritiqueRound]
    refine List.map_congr_left ?_
    intro r hr
    rw [find?_sigs_of_nodup hnd hr]
    simp only [Option.getD_some, agreementRatioOf, List.length_map]
  · intro r hr
    have hratio : 0 ≤ agreementRatioOf rs r := by
      rw [agreementRatioOf]
      apply div_nonneg (Nat.cast_nonneg _)
      have hq : (2 : ℚ) ≤ (rs.length : ℚ) := by exact_mod_cast h2
      linarith
    have hdelta : 0 ≤ agreementRatioOf rs r * 0.15 :=
      mul_nonneg hratio (by norm_num)
    exact ⟨le_min (hconf r hr).2 (by linarith), min_le_left _ _⟩

theorem c7_critique_boost_witness :
    runCritiqueRound wellFormedPair = wellFormedPair.map (fun r =>
      { r with
        confidence := min 1 (r.confidence + agreementRatioOf wellFormedPair r * 0.15) }) ∧
    ∀ r ∈ wellFormedPair,
      r.confidence ≤ min 1 (r.confidence + agreementRatioOf wellFormedPair r * 0.15) ∧
      min 1 (r.confidence + agreementRatioOf wellFormedPair r * 0.15) ≤ 1 :=
  c7_critique_boost wellFormedPair (by decide) (by decide) (by decide)

/-- C8.  For any segment list, non-empty `currentFile`, and selection
range with `endLine ≥ startLine`, every edit built by `buildEdits` has a
non-empty file, carries a range exactly when its action is `replace`, and
every carried range has `endLine ≥ startLine`. -/
theorem c8_edit_invariants (blocks : List CodeBlock) (cur : String) (sel : Option SelRange)
    (hcur : cur ≠ "") (hsel : ∀ r ∈ sel, r.startLine ≤ r.endLine) :
    ∀ e ∈ buildEdits blocks cur sel,
      e.file ≠ "" ∧ (e.action = .replace ↔ e.range.isSome = true) ∧
      ∀ r ∈ e.range, r.startLine ≤ r.endLine := by
  intro e he
  rw [buildEdits, List.mem_flatMap] at he
  obtain ⟨b, hb, he⟩ := he
  split at he
  · obtain ⟨hfile, hact, r, hrange, _, _, hle⟩ := parseDiffToEdits_mem hcur e he
    refine ⟨hfile, ?_, ?_⟩
    · rw [hact, hrange]
      simp
    · intro r' hr'
      rw [hrange] at hr'
      have h3 : r = r' := by simpa using hr'
      subst h3
      exact hle
  · split at he
    · rcases List.mem_singleton.mp he with rfl
      refine ⟨resolveName_ne_empty b hcur, by simp, by simp⟩
    · split at he
      · next rsel =>
        rcases List.mem_singleton.mp he with rfl
        refine ⟨resolveName_ne_empty b hcur, by simp, ?_⟩
        intro r' hr'
        have h3 : rsel = r' := by simpa using hr'
        subst h3
        exact hsel rsel (by simp)
      · rcases List.mem_singleton.mp he with rfl
        exact ⟨resolveName_ne_empty b hcur, by simp, by simp⟩

def c8WitnessRange : SelRange :=
  { startLine := 1, startChar := 0, endLine := 3, endChar := 0 }

def c8WitnessEdit : Edit :=
  { file := "other.ts", range := some c8WitnessRange, newText := hintOnlyBlock.code,
    action := .replace }

theorem c8_edit_invariants_witness :
    c8WitnessEdit.file ≠ "" ∧
    (c8WitnessEdit.action = .replace ↔ c8WitnessEdit.range.isSome = true) ∧
    c8WitnessRange.startLine ≤ c8WitnessRange.endLine := by
  have h := c8_edit_invariants [hintOnlyBlock, roundTripBlock] "cur.ts"
    (some c8WitnessRange)
    (by decide)
    (fun r hr => by
      have h3 : c8WitnessRange = r := by simpa using hr
      rw [← h3]
      decide)
    c8WitnessEdit
    (by decide)
  exact ⟨h.1, h.2.1, h.2.2 c8WitnessRange (Option.mem_def.mpr rfl)⟩

end Consensus
